import Mathlib

/-!
Verification of the identity-card aggregation and ordering logic of
`packages/composer-playground/src/app/login/login.component.ts`
(`loadIdentityCards`, `sortIdCards`, `sortBy`).

The JavaScript `Map` passed around by the component is modelled as an
association list in insertion order, which is exactly the iteration order
JavaScript guarantees.  JavaScript values that flow through the untyped
comparator `sortBy` (strings, arrays, `undefined`) are modelled by the
inductive type `JsVal`, with JavaScript truthiness (the empty string is
falsy, every array object is truthy) and the JavaScript `<` operator
(arrays are coerced to their comma-joined string, any comparison against
`undefined` is false).
-/

namespace FabricComposer

/-- Connection profile value, as consumed by the aggregator.  The field
`qualifiedRef` carries the string that `IdentityCardService.getQualifiedProfileName`
derives for this profile; that service is an external collaborator of the
component (it is not part of the aggregation logic itself), so the derived
key is modelled as an opaque deterministic attribute of the profile. -/
structure ConnectionProfile where
  name : String
  qualifiedRef : String
deriving DecidableEq

/-- Identity card, exposing the four accessors used by the component:
`getName`, `getBusinessNetworkName`, `getRoles` and `getConnectionProfile`.
The first three may be absent in JavaScript, hence the `Option`s. -/
structure IdCard where
  name : Option String
  businessNetworkName : Option String
  roles : Option (List String)
  connectionProfile : ConnectionProfile
deriving DecidableEq

instance : Inhabited IdCard := ⟨⟨none, none, none, ⟨"", ""⟩⟩⟩

/-- The qualified profile reference derived for a card's connection profile. -/
def profileRefOf (card : IdCard) : String :=
  card.connectionProfile.qualifiedRef

/-- JavaScript values reaching the untyped comparator `sortBy`. -/
inductive JsVal where
  | undef : JsVal
  | str : String → JsVal
  | arr : List String → JsVal
deriving DecidableEq

/-- JavaScript truthiness: `undefined` and the empty string are falsy; every
array object is truthy, including the empty array. -/
def jsTruthy : JsVal → Bool
  | JsVal.undef => false
  | JsVal.str s => decide (s ≠ "")
  | JsVal.arr _ => true

/-- ToPrimitive-then-ToString as used by the JavaScript relational operators:
an array becomes its comma-joined string; `undefined` stays non-string. -/
def jsToPrim : JsVal → Option String
  | JsVal.undef => none
  | JsVal.str s => some s
  | JsVal.arr elts => some (String.intercalate "," elts)

/-- Lexicographic (case-sensitive, code-by-code) strict comparison on
character lists, the JavaScript ordering on strings: compare the heads, move
on when they are equal, and let a proper prefix come first. -/
def charListLt : List Char → List Char → Bool
  | [], [] => false
  | [], _ :: _ => true
  | _ :: _, [] => false
  | a :: as, b :: bs =>
      if a.toNat < b.toNat then true
      else if b.toNat < a.toNat then false
      else charListLt as bs

/-- The JavaScript `<` operator on the values at hand: string comparison is
lexicographic; any comparison involving `undefined` is false (NaN). -/
def jsLt (a b : JsVal) : Bool :=
  match jsToPrim a, jsToPrim b with
  | some x, some y => charListLt x.data y.data
  | _, _ => false

/-- Embedding of `LoginComponent.sortBy` (lines 287-310): absent (falsy) keys
compare equal to each other and before present (truthy) ones, present keys
compare with the JavaScript relational operators. -/
def sortBy (aName bName : JsVal) : Int :=
  if !jsTruthy aName && !jsTruthy bName then 0
  else if !jsTruthy aName && jsTruthy bName then -1
  else if jsTruthy aName && !jsTruthy bName then 1
  else if jsLt aName bName then -1
  else if jsLt bName aName then 1
  else 0

/-- Encoding of an optional string accessor result as the JavaScript value
handed to `sortBy`. -/
def optStrVal : Option String → JsVal
  | none => JsVal.undef
  | some s => JsVal.str s

/-- Encoding of the `getRoles()` accessor result as the JavaScript value
handed to `sortBy`: an absent roles list is `undefined`, a present one is an
array object. -/
def rolesVal : Option (List String) → JsVal
  | none => JsVal.undef
  | some elts => JsVal.arr elts

/-- Embedding of `LoginComponent.sortIdCards` (lines 259-285) applied to the
two cards already looked up.  The function compares by business network name,
then by roles; in the final tie-break step it computes
`result = this.sortBy(aName, bName)` but never returns it, so the JavaScript
function completes with value `undefined`, modelled here as `none`. -/
def sortIdCards (cardA cardB : IdCard) : Option Int :=
  let aBusinessNetwork := optStrVal cardA.businessNetworkName
  let bBusinessNetwork := optStrVal cardB.businessNetworkName
  let aName := optStrVal cardA.name
  let bName := optStrVal cardB.name
  let aRoles := rolesVal cardA.roles
  let bRoles := rolesVal cardB.roles
  let result := sortBy aBusinessNetwork bBusinessNetwork
  if result ≠ 0 then some result
  else
    let result2 := sortBy aRoles bRoles
    if result2 ≠ 0 then some result2
    else
      let _result3 := sortBy aName bName
      none

/-- Lookup in a JavaScript `Map`, modelled as an association list in
insertion order (first binding wins; keys are unique in an actual `Map`). -/
def mapGet {β : Type} : List (String × β) → String → Option β
  | [], _ => none
  | (k, v) :: rest, key => if k = key then some v else mapGet rest key

/-- The `Map.has` test. -/
def mapHas {β : Type} (m : List (String × β)) (key : String) : Bool :=
  (mapGet m key).isSome

/-- The `Map.set` operation: an existing key keeps its insertion position and
gets the new value; a new key is appended at the end. -/
def mapSet {β : Type} : List (String × β) → String → β → List (String × β)
  | [], key, v => [(key, v)]
  | (k, v') :: rest, key, v =>
      if k = key then (k, v) :: rest else (k, v') :: mapSet rest key v

/-- The mapping pass of `loadIdentityCards` (lines 63-73): walk the card
entries in iteration order, record the display name and profile value of each
newly discovered profile reference, and emit the `[connectionProfileRef,
cardRef]` pairs in input order.  The accumulators are the component's
`connectionProfileNames` and `connectionProfiles` maps. -/
def discoverAux (names : List (String × String))
    (profiles : List (String × ConnectionProfile)) :
    List (String × IdCard) →
      List (String × String) × List (String × ConnectionProfile) ×
        List (String × String)
  | [] => (names, profiles, [])
  | entry :: rest =>
      let connectionProfile := entry.2.connectionProfile
      let connectionProfileRef := profileRefOf entry.2
      let names2 :=
        if mapHas names connectionProfileRef then names
        else mapSet names connectionProfileRef connectionProfile.name
      let profiles2 :=
        if mapHas names connectionProfileRef then profiles
        else mapSet profiles connectionProfileRef connectionProfile
      let r := discoverAux names2 profiles2 rest
      (r.1, r.2.1, (connectionProfileRef, entry.1) :: r.2.2)

/-- The discovery pass started from empty maps, as in the component. -/
def discoverProfiles (cards : List (String × IdCard)) :
    List (String × String) × List (String × ConnectionProfile) ×
      List (String × String) :=
  discoverAux [] [] cards

/-- The `reduce` grouping pass of `loadIdentityCards` (lines 74-78): fold the
`[connectionProfileRef, cardRef]` pairs into a map from profile reference to
the list of its card references, appending each reference at the end of its
group (`prev.get(cur[0]) || []` yields the empty list for a fresh key). -/
def groupPairsAux (prev : List (String × List String)) :
    List (String × String) → List (String × List String)
  | [] => prev
  | cur :: rest =>
      let curCardRefs := (mapGet prev cur.1).getD []
      groupPairsAux (mapSet prev cur.1 (curCardRefs ++ [cur.2])) rest

/-- Grouping started from the fresh `new Map()`. -/
def groupPairs (pairs : List (String × String)) : List (String × List String) :=
  groupPairsAux [] pairs

/-- The `getIdentityCard` lookup performed inside the card comparator; every
reference being sorted is a key of the card map, so the default is never
reached on the inputs the component produces. -/
def getIdentityCard (cards : List (String × IdCard)) (ref : String) : IdCard :=
  (mapGet cards ref).getD default

/-- Numeric comparator value consumed by `Array.prototype.sort` for two card
references: the `undefined` produced by the missing final return statement of
`sortIdCards` is coerced by ToNumber to NaN, which the sort treats as 0. -/
def sortIdCardsNum (cards : List (String × IdCard)) (a b : String) : Int :=
  (sortIdCards (getIdentityCard cards a) (getIdentityCard cards b)).getD 0

/-- Insert an element into a list, before the first element `b` with
`le a b`; together with `stableSort` this is the stable insertion sort. -/
def ordInsert {α : Type} (le : α → α → Bool) (a : α) : List α → List α
  | [] => [a]
  | b :: l => if le a b then a :: b :: l else b :: ordInsert le a l

/-- Stable sort with respect to the boolean relation `le a b`, meaning that
the comparator applied to `(a, b)` returned a value `≤ 0`.
`Array.prototype.sort` is required to be stable (ES2019) and, for a
consistent comparator, every stable sort produces this same output. -/
def stableSort {α : Type} (le : α → α → Bool) : List α → List α
  | [] => []
  | b :: l => ordInsert le b (stableSort le l)

/-- The JavaScript `Array.prototype.indexOf`: the index of the first
occurrence, or -1 when the element does not occur. -/
def jsIndexOf (l : List String) (x : String) : Int :=
  match l with
  | [] => -1
  | y :: rest =>
      if y = x then 0
      else
        let r := jsIndexOf rest x
        if r < 0 then -1 else r + 1

/-- JavaScript array indexing: a negative or out-of-range index yields
`undefined`. -/
def jsAt (l : List String) (i : Int) : Option String :=
  if i < 0 then none else l.get? i.toNat

/-- The JavaScript `Array.prototype.splice(start, 1)`: a negative start
counts from the end of the array and is clamped at 0, so `splice(-1, 1)`
removes the last element of a non-empty array and nothing from an empty
one. -/
def jsSplice1 (l : List String) (start : Int) : List String :=
  let len : Int := l.length
  let actual : Nat := (if start < 0 then max (len + start) 0 else min start len).toNat
  l.take actual ++ l.drop (actual + 1)

/-- The connection-profile comparator (lines 89-99): compare the display
names looked up in `connectionProfileNames` with the JavaScript relational
operators.  On ties the function body falls through without returning, and
the resulting `undefined` is treated as 0 by the sort. -/
def profileCmp (names : List (String × String)) (a b : String) : Int :=
  let aName := mapGet names a
  let bName := mapGet names b
  if jsLt (optStrVal aName) (optStrVal bName) then -1
  else if jsLt (optStrVal bName) (optStrVal aName) then 1
  else 0

/-- The keys of the `connectionProfileNames` map in discovery order
(line 85, `Array.from(this.connectionProfileNames.keys())`). -/
def profileKeys (names : List (String × String)) : List String :=
  names.map Prod.fst

/-- The `indexOf('web-$default')` lookup of line 86. -/
def webIndex (names : List (String × String)) : Int :=
  jsIndexOf (profileKeys names) "web-$default"

/-- The `webProfile` lookup of line 87; `undefined` when the sentinel is
absent, because the index is then -1. -/
def webProfile (names : List (String × String)) : Option String :=
  jsAt (profileKeys names) (webIndex names)

/-- The key list after the `splice(indexOfWeb, 1)` call of line 88. -/
def splicedKeys (names : List (String × String)) : List String :=
  jsSplice1 (profileKeys names) (webIndex names)

/-- The remaining keys sorted by display name (lines 89-99). -/
def sortedKeys (names : List (String × String)) : List String :=
  stableSort (fun a b => decide (profileCmp names a b ≤ 0)) (splicedKeys names)

/-- The final profile order (lines 85-101): the possibly-undefined
`webProfile` is unshifted onto the sorted keys, hence the `Option String`
entries. -/
def computeProfileOrder (names : List (String × String)) : List (Option String) :=
  webProfile names :: (sortedKeys names).map some

/-- The externally visible outcome of one `loadIdentityCards` aggregation. -/
structure AggregationResult where
  profileNames : List (String × String)
  profiles : List (String × ConnectionProfile)
  profileOrder : List (Option String)
  cardsByProfile : List (String × List String)
deriving DecidableEq

/-- The full aggregation computed by `loadIdentityCards` (lines 57-101) from
the card map returned by the store: discover profiles, group card references
by profile, sort each group with `sortIdCards`, and compute the profile
order. -/
def aggregate (cards : List (String × IdCard)) : AggregationResult :=
  let d := discoverProfiles cards
  let names := d.1
  let newCardRefs := groupPairs d.2.2
  let sortedGroups := newCardRefs.map
    (fun g => (g.1, stableSort (fun a b => decide (sortIdCardsNum cards a b ≤ 0)) g.2))
  { profileNames := names
    profiles := d.2.1
    profileOrder := computeProfileOrder names
    cardsByProfile := sortedGroups }

/-- The component fields written by `loadIdentityCards`; the remaining
component state is untouched by the method and represented by
`usingLocally`. -/
structure LoginState where
  usingLocally : Bool
  idCards : List (String × IdCard)
  connectionProfileNames : List (String × String)
  connectionProfiles : List (String × ConnectionProfile)
  idCardRefs : List (String × List String)
  connectionProfileRefs : List (Option String)
deriving DecidableEq

/-- The state transition performed by one successful `loadIdentityCards`
call: every field it assigns is recomputed in full from the card map. -/
def loadIdentityCards (cards : List (String × IdCard)) (s : LoginState) :
    LoginState :=
  let r := aggregate cards
  { s with
    idCards := cards
    connectionProfileNames := r.profileNames
    connectionProfiles := r.profiles
    idCardRefs := r.cardsByProfile
    connectionProfileRefs := r.profileOrder }

/-- Concrete connection profile for the playground's default local target. -/
def exProfileWeb : ConnectionProfile := ⟨"Web Browser", "web-$default"⟩

/-- Concrete connection profile of a first organisation. -/
def exProfileA : ConnectionProfile := ⟨"Org A profile", "org-a-ref"⟩

/-- Concrete connection profile of a second organisation. -/
def exProfileB : ConnectionProfile := ⟨"Org B profile", "org-b-ref"⟩

/-- Concrete card on the default local profile. -/
def exCardWeb : IdCard := ⟨some "eve", none, some [], exProfileWeb⟩

/-- Concrete card on the first organisation profile, without roles. -/
def exCardA1 : IdCard := ⟨some "alice", some "net-a", some [], exProfileA⟩

/-- Concrete card on the first organisation profile, with a role. -/
def exCardA2 : IdCard := ⟨some "bob", some "net-a", some ["PeerAdmin"], exProfileA⟩

/-- Concrete card on the second organisation profile. -/
def exCardB : IdCard := ⟨some "carol", some "net-b", some [], exProfileB⟩

/-- Concrete input mapping containing the sentinel profile. -/
def exCards : List (String × IdCard) :=
  [("c1", exCardA1), ("c2", exCardA2), ("c3", exCardWeb)]

/-- Concrete input mapping without the sentinel profile. -/
def exCardsNoWeb : List (String × IdCard) :=
  [("c1", exCardA1), ("c4", exCardB)]

/-! Basic facts about the association-list model of JavaScript maps. -/

theorem mapGet_isSome_iff_mem {β : Type} (m : List (String × β)) (k : String) :
    (mapGet m k).isSome = true ↔ k ∈ m.map Prod.fst := by
  induction m with
  | nil => simp [mapGet]
  | cons e rest ih =>
      obtain ⟨k1, v1⟩ := e
      by_cases h : k1 = k
      · subst h
        simp [mapGet]
      · simp [mapGet, h, ih, Ne.symm h]

theorem mapHas_iff_mem {β : Type} (m : List (String × β)) (k : String) :
    mapHas m k = true ↔ k ∈ m.map Prod.fst := by
  unfold mapHas
  exact mapGet_isSome_iff_mem m k

theorem mapSet_of_not_has {β : Type} {m : List (String × β)} {k : String}
    (h : mapHas m k = false) (v : β) : mapSet m k v = m ++ [(k, v)] := by
  induction m with
  | nil => rfl
  | cons e rest ih =>
      obtain ⟨k1, v1⟩ := e
      have hk : ¬ k1 = k := by
        intro hk
        subst hk
        simp [mapHas, mapGet] at h
      have hrest : mapHas rest k = false := by
        simpa [mapHas, mapGet, hk] using h
      simp [mapSet, hk, ih hrest]

theorem mapGet_mem {β : Type} {m : List (String × β)} {k : String} {v : β}
    (h : mapGet m k = some v) : (k, v) ∈ m := by
  induction m with
  | nil => simp [mapGet] at h
  | cons e rest ih =>
      obtain ⟨k1, v1⟩ := e
      by_cases hk : k1 = k
      · subst hk
        simp [mapGet] at h
        simp [h]
      · simp [mapGet, hk] at h
        simp [ih h]

theorem mapGet_of_mem_nodup {β : Type} {m : List (String × β)} {k : String}
    {v : β} (hnd : (m.map Prod.fst).Nodup) (h : (k, v) ∈ m) :
    mapGet m k = some v := by
  induction m with
  | nil => simp at h
  | cons e rest ih =>
      obtain ⟨k1, v1⟩ := e
      rw [List.map_cons, List.nodup_cons] at hnd
      obtain ⟨hk1, hnd2⟩ := hnd
      rcases List.mem_cons.mp h with h1 | h1
      · rw [Prod.ext_iff] at h1
        obtain ⟨hk, hv⟩ := h1
        simp only at hk hv
        subst hk
        simp [mapGet, hv]
      · have hk : ¬ k1 = k := by
          intro hkk
          subst hkk
          exact hk1 (List.mem_map.mpr ⟨(k1, v), h1, rfl⟩)
        simp [mapGet, hk, ih hnd2 h1]

/-! Facts about the discovery pass. -/

theorem discoverAux_pairs (names : List (String × String))
    (profiles : List (String × ConnectionProfile))
    (cards : List (String × IdCard)) :
    (discoverAux names profiles cards).2.2
      = cards.map (fun e => (profileRefOf e.2, e.1)) := by
  induction cards generalizing names profiles with
  | nil => rfl
  | cons e rest ih => simp [discoverAux, ih]

theorem discoverAux_keys_mem (names : List (String × String))
    (profiles : List (String × ConnectionProfile))
    (cards : List (String × IdCard)) (x : String) :
    x ∈ (discoverAux names profiles cards).1.map Prod.fst
      ↔ x ∈ names.map Prod.fst ∨ x ∈ cards.map (fun e => profileRefOf e.2) := by
  induction cards generalizing names profiles with
  | nil => simp [discoverAux]
  | cons e rest ih =>
      by_cases h : mapHas names (profileRefOf e.2) = true
      · have hmem : profileRefOf e.2 ∈ names.map Prod.fst :=
          (mapHas_iff_mem names (profileRefOf e.2)).mp h
        simp only [discoverAux, h, if_pos, List.map_cons, List.mem_cons]
        rw [ih]
        constructor
        · rintro (h1 | h1)
          · exact Or.inl h1
          · exact Or.inr (Or.inr h1)
        · rintro (h1 | h1 | h1)
          · exact Or.inl h1
          · exact Or.inl (h1 ▸ hmem)
          · exact Or.inr h1
      · have h' : mapHas names (profileRefOf e.2) = false := by
          simpa using h
        simp only [discoverAux, h', if_neg, Bool.false_eq_true, not_false_iff,
          List.map_cons, List.mem_cons]
        rw [ih, mapSet_of_not_has h']
        simp only [List.map_append, List.map_cons, List.map_nil,
          List.mem_append, List.mem_cons, List.not_mem_nil, or_false]
        tauto

theorem discoverAux_keys_nodup (names : List (String × String))
    (profiles : List (String × ConnectionProfile))
    (cards : List (String × IdCard))
    (h : (names.map Prod.fst).Nodup) :
    ((discoverAux names profiles cards).1.map Prod.fst).Nodup := by
  induction cards generalizing names profiles with
  | nil => simpa [discoverAux]
  | cons e rest ih =>
      by_cases hc : mapHas names (profileRefOf e.2) = true
      · simpa [discoverAux, hc] using ih names profiles h
      · have hc' : mapHas names (profileRefOf e.2) = false := by simpa using hc
        have hnotmem : profileRefOf e.2 ∉ names.map Prod.fst := by
          intro hmem
          rw [← mapHas_iff_mem] at hmem
          rw [hc'] at hmem
          cases hmem
        have hnd2 : ((mapSet names (profileRefOf e.2)
            e.2.connectionProfile.name).map Prod.fst).Nodup := by
          rw [mapSet_of_not_has hc']
          simp [List.nodup_append, h, hnotmem]
        simpa [discoverAux, hc'] using ih _ _ hnd2

/-! Facts about the stable insertion sort. -/

theorem ordInsert_perm {α : Type} (le : α → α → Bool) (a : α) (l : List α) :
    List.Perm (ordInsert le a l) (a :: l) := by
  induction l with
  | nil => exact List.Perm.refl _
  | cons b bs ih =>
      by_cases h : le a b = true
      · simp [ordInsert, h]
      · simp only [ordInsert, h, if_neg, Bool.false_eq_true, not_false_iff]
        exact (ih.cons b).trans (List.Perm.swap a b bs)

theorem stableSort_perm {α : Type} (le : α → α → Bool) (l : List α) :
    List.Perm (stableSort le l) l := by
  induction l with
  | nil => exact List.Perm.refl _
  | cons b bs ih =>
      exact (ordInsert_perm le b (stableSort le bs)).trans (ih.cons b)

/-! Facts about the JavaScript `indexOf`, indexing and `splice` operations. -/

theorem jsIndexOf_of_not_mem {x : String} {l : List String} (h : x ∉ l) :
    jsIndexOf l x = -1 := by
  induction l with
  | nil => rfl
  | cons y rest ih =>
      have hy : ¬ y = x := fun hy => h (hy ▸ List.mem_cons_self y rest)
      have hrest : x ∉ rest := fun hr => h (List.mem_cons_of_mem y hr)
      simp [jsIndexOf, hy, ih hrest]

theorem jsIndexOf_nonneg_of_mem {x : String} {l : List String} (h : x ∈ l) :
    0 ≤ jsIndexOf l x := by
  induction l with
  | nil => simp at h
  | cons y rest ih =>
      by_cases hy : y = x
      · simp [jsIndexOf, hy]
      · have hrest : x ∈ rest := by
          rcases List.mem_cons.mp h with h1 | h1
          · exact absurd h1.symm hy
          · exact h1
        have h0 := ih hrest
        simp only [jsIndexOf, hy, if_neg, not_false_iff]
        rw [if_neg (by omega)]
        omega

theorem jsSplice1_cons_zero (y : String) (l : List String) :
    jsSplice1 (y :: l) 0 = l := by
  have hmin : (0 : Int) ⊓ ((l.length : Int) + 1) = 0 := by
    apply min_eq_left
    omega
  simp [jsSplice1, hmin]

theorem jsSplice1_cons_succ (y : String) (l : List String) {i : Int}
    (h : 0 ≤ i) : jsSplice1 (y :: l) (i + 1) = y :: jsSplice1 l i := by
  have h1 : ¬ i + 1 < 0 := by omega
  have h2 : ¬ i < 0 := by omega
  simp only [jsSplice1, h1, h2, if_neg, not_false_iff, List.length_cons]
  push_cast
  have hmin : (i + 1) ⊓ ((l.length : Int) + 1) = i ⊓ (l.length : Int) + 1 := by
    omega
  rw [hmin]
  have h3 : 0 ≤ i ⊓ (l.length : Int) := by omega
  rw [Int.toNat_add h3 (by omega : (0:Int) ≤ 1)]
  simp [List.take_succ_cons, List.drop_succ_cons]

theorem jsSplice1_neg_one (l : List String) : jsSplice1 l (-1) = l.dropLast := by
  cases l with
  | nil => rfl
  | cons y ys =>
      have h1 : ((-1 : Int) < 0) := by omega
      simp only [jsSplice1, h1, if_pos, List.length_cons]
      have hmax : max ((((y :: ys).length : Int)) + (-1)) 0 = ((ys.length : Int)) := by
        simp
      simp only [List.length_cons] at hmax
      rw [hmax, Int.toNat_natCast]
      rw [List.dropLast_eq_take]
      have hdrop : (y :: ys).drop (ys.length + 1) = [] := by
        apply List.drop_eq_nil_of_le
        simp
      rw [hdrop, List.append_nil]
      simp [List.length_cons]

theorem jsFound_spec {x : String} :
    ∀ {l : List String}, x ∈ l →
      jsAt l (jsIndexOf l x) = some x
        ∧ List.Perm (x :: jsSplice1 l (jsIndexOf l x)) l
        ∧ List.Sublist (jsSplice1 l (jsIndexOf l x)) l := by
  intro l
  induction l with
  | nil => intro h; simp at h
  | cons y rest ih =>
      intro h
      by_cases hy : y = x
      · subst hy
        have hidx : jsIndexOf (y :: rest) y = 0 := by simp [jsIndexOf]
        refine ⟨?_, ?_, ?_⟩
        · rw [hidx]
          simp [jsAt]
        · rw [hidx, jsSplice1_cons_zero]
        · rw [hidx, jsSplice1_cons_zero]
          exact List.sublist_cons_self y rest
      · have hrest : x ∈ rest := by
          rcases List.mem_cons.mp h with h1 | h1
          · exact absurd h1.symm hy
          · exact h1
        have h0 : 0 ≤ jsIndexOf rest x := jsIndexOf_nonneg_of_mem hrest
        have hidx : jsIndexOf (y :: rest) x = jsIndexOf rest x + 1 := by
          simp only [jsIndexOf, hy, if_neg, not_false_iff]
          rw [if_neg (by omega)]
        obtain ⟨iat, iperm, isub⟩ := ih hrest
        refine ⟨?_, ?_, ?_⟩
        · rw [hidx]
          have h1 : ¬ jsIndexOf rest x + 1 < 0 := by omega
          have h2 : ¬ jsIndexOf rest x < 0 := by omega
          simp only [jsAt, h1, h2, if_neg, not_false_iff] at iat ⊢
          rw [Int.toNat_add h0 (by omega : (0:Int) ≤ 1)]
          simpa using iat
        · rw [hidx, jsSplice1_cons_succ y rest h0]
          exact (List.Perm.swap y x _).trans (iperm.cons y)
        · rw [hidx, jsSplice1_cons_succ y rest h0]
          exact isub.cons₂ y

/-! Order-theoretic facts about the lexicographic comparison. -/

theorem charListLt_irrefl : ∀ l : List Char, charListLt l l = false := by
  intro l
  induction l with
  | nil => rfl
  | cons a as ih =>
      simp only [charListLt]
      rw [if_neg (lt_irrefl a.toNat), if_neg (lt_irrefl a.toNat)]
      exact ih

theorem charListLt_antisymm :
    ∀ {x y : List Char}, charListLt x y = false → charListLt y x = false →
      x = y := by
  intro x
  induction x with
  | nil =>
      intro y h1 h2
      cases y with
      | nil => rfl
      | cons b bs => simp [charListLt] at h1
  | cons a as ih =>
      intro y h1 h2
      cases y with
      | nil => simp [charListLt] at h2
      | cons b bs =>
          simp only [charListLt] at h1 h2
          by_cases hab : a.toNat < b.toNat
          · rw [if_pos hab] at h1
            cases h1
          · by_cases hba : b.toNat < a.toNat
            · rw [if_pos hba] at h2
              cases h2
            · rw [if_neg hab, if_neg hba] at h1
              rw [if_neg hba, if_neg hab] at h2
              have hchar : a = b := Char.eq_of_val_eq (by
                have : a.toNat = b.toNat := by omega
                exact UInt32.toNat.inj this)
              rw [hchar, ih h1 h2]

/-! Chain and stability facts about the stable insertion sort. -/

theorem chain'_ordInsert {α : Type} (le : α → α → Bool)
    (htot : ∀ a b, le a b = true ∨ le b a = true) (a : α) :
    ∀ l : List α, List.Chain' (fun x y => le x y = true) l →
      List.Chain' (fun x y => le x y = true) (ordInsert le a l) := by
  intro l
  induction l with
  | nil =>
      intro _
      simp [ordInsert]
  | cons b bs ih =>
      intro hch
      by_cases hab : le a b = true
      · simp only [ordInsert, hab, if_pos]
        exact List.chain'_cons.mpr ⟨hab, hch⟩
      · have hba : le b a = true := (htot a b).resolve_left hab
        simp only [ordInsert, hab, if_neg, Bool.false_eq_true, not_false_iff]
        have hrec := ih hch.tail
        cases bs with
        | nil =>
            simp only [ordInsert]
            exact List.chain'_cons.mpr ⟨hba, List.chain'_singleton a⟩
        | cons c cs =>
            by_cases hac : le a c = true
            · rw [show ordInsert le a (c :: cs) = a :: c :: cs from by
                simp [ordInsert, hac]]
              exact List.chain'_cons.mpr
                ⟨hba, List.chain'_cons.mpr ⟨hac, hch.tail⟩⟩
            · rw [show ordInsert le a (c :: cs) = c :: ordInsert le a cs from by
                simp [ordInsert, hac]]
              rw [show ordInsert le a (c :: cs) = c :: ordInsert le a cs from by
                simp [ordInsert, hac]] at hrec
              exact List.chain'_cons.mpr ⟨(List.chain'_cons.mp hch).1, hrec⟩

theorem chain'_stableSort {α : Type} (le : α → α → Bool)
    (htot : ∀ a b, le a b = true ∨ le b a = true) (l : List α) :
    List.Chain' (fun x y => le x y = true) (stableSort le l) := by
  induction l with
  | nil => simp [stableSort]
  | cons b bs ih => exact chain'_ordInsert le htot b _ ih

theorem chain'_transfer {α : Type} {R S : α → α → Prop} {Q : α → Prop} :
    ∀ {l : List α}, List.Chain' R l → (∀ x ∈ l, Q x) →
      (∀ a b, R a b → Q a → Q b → S a b) → List.Chain' S l := by
  intro l
  induction l with
  | nil =>
      intro _ _ _
      exact List.chain'_nil
  | cons a rest ih =>
      intro hch hq himp
      cases rest with
      | nil => exact List.chain'_singleton a
      | cons b t =>
          have h1 := List.chain'_cons.mp hch
          refine List.chain'_cons.mpr ⟨?_, ?_⟩
          · exact himp a b h1.1 (hq a (by simp)) (hq b (by simp))
          · exact ih h1.2 (fun x hx => hq x (List.mem_cons_of_mem _ hx)) himp

theorem filter_ordInsert_pos {α : Type} (le : α → α → Bool) (p : α → Bool)
    (hcomp : ∀ a b, p a = true → p b = true → le a b = true)
    {a : α} (hpa : p a = true) :
    ∀ l : List α,
      List.filter p (ordInsert le a l) = a :: List.filter p l := by
  intro l
  induction l with
  | nil => simp [ordInsert, List.filter_cons, hpa]
  | cons b bs ih =>
      by_cases hab : le a b = true
      · simp [ordInsert, hab, List.filter_cons, hpa]
      · have hpb : p b = false := by
          cases hpbv : p b
          · rfl
          · exact absurd (hcomp a b hpa hpbv) hab
        simp only [ordInsert, hab, if_neg, Bool.false_eq_true, not_false_iff]
        rw [List.filter_cons, List.filter_cons]
        simp only [hpb, Bool.false_eq_true, if_neg, not_false_iff]
        exact ih

theorem filter_ordInsert_neg {α : Type} (le : α → α → Bool) (p : α → Bool)
    {a : α} (hpa : p a = false) :
    ∀ l : List α, List.filter p (ordInsert le a l) = List.filter p l := by
  intro l
  induction l with
  | nil => simp [ordInsert, List.filter_cons, hpa]
  | cons b bs ih =>
      by_cases hab : le a b = true
      · simp [ordInsert, hab, List.filter_cons, hpa]
      · simp only [ordInsert, hab, if_neg, Bool.false_eq_true, not_false_iff]
        rw [List.filter_cons, List.filter_cons, ih]

theorem filter_stableSort {α : Type} (le : α → α → Bool) (p : α → Bool)
    (hcomp : ∀ a b, p a = true → p b = true → le a b = true) :
    ∀ l : List α, List.filter p (stableSort le l) = List.filter p l := by
  intro l
  induction l with
  | nil => rfl
  | cons b bs ih =>
      show List.filter p (ordInsert le b (stableSort le bs)) = _
      cases hpb : p b
      · rw [filter_ordInsert_neg le p hpb _, ih, List.filter_cons]
        simp [hpb]
      · rw [filter_ordInsert_pos le p hcomp hpb _, ih, List.filter_cons]
        simp [hpb]

theorem filterMap_id_map_some {α : Type} (l : List α) :
    (l.map some).filterMap id = l := by
  induction l with
  | nil => rfl
  | cons a as ih => simp [List.filterMap_cons, ih]

/-! Facts about the profile-name comparator. -/

theorem profileCmp_eq (names : List (String × String)) (a b : String) :
    profileCmp names a b =
      if jsLt (optStrVal (mapGet names a)) (optStrVal (mapGet names b)) then -1
      else if jsLt (optStrVal (mapGet names b)) (optStrVal (mapGet names a)) then 1
      else 0 := rfl

theorem profileCmp_le_total (names : List (String × String)) (a b : String) :
    decide (profileCmp names a b ≤ 0) = true
      ∨ decide (profileCmp names b a ≤ 0) = true := by
  by_cases h : profileCmp names a b ≤ 0
  · exact Or.inl (by simpa)
  · right
    rw [profileCmp_eq] at h
    rw [profileCmp_eq]
    by_cases h1 : jsLt (optStrVal (mapGet names a)) (optStrVal (mapGet names b)) = true
    · rw [if_pos h1] at h
      omega
    · by_cases h2 : jsLt (optStrVal (mapGet names b)) (optStrVal (mapGet names a)) = true
      · rw [if_pos h2]
        decide
      · rw [if_neg h1, if_neg h2] at h
        omega

/-! Facts about the grouping pass. -/

theorem mem_mapSet {β : Type} {m : List (String × β)} {k : String} {v : β}
    {e : String × β} (h : e ∈ mapSet m k v) : e ∈ m ∨ e = (k, v) := by
  induction m with
  | nil => simpa [mapSet] using h
  | cons e1 rest ih =>
      obtain ⟨k1, v1⟩ := e1
      by_cases hk : k1 = k
      · subst hk
        simp only [mapSet, if_pos rfl] at h
        rcases List.mem_cons.mp h with h1 | h1
        · exact Or.inr h1
        · exact Or.inl (List.mem_cons_of_mem _ h1)
      · simp only [mapSet, hk, if_neg, not_false_iff] at h
        rcases List.mem_cons.mp h with h1 | h1
        · exact Or.inl (h1 ▸ List.mem_cons_self _ _)
        · rcases ih h1 with h2 | h2
          · exact Or.inl (List.mem_cons_of_mem _ h2)
          · exact Or.inr h2

theorem flat_mapSet (m : List (String × List String)) (k r : String) :
    List.Perm (((mapSet m k ((mapGet m k).getD [] ++ [r])).map Prod.snd).flatten)
      ((m.map Prod.snd).flatten ++ [r]) := by
  induction m with
  | nil => simp [mapSet, mapGet]
  | cons e rest ih =>
      obtain ⟨k1, v1⟩ := e
      by_cases hk : k1 = k
      · subst hk
        have hm : mapSet ((k1, v1) :: rest) k1
              ((mapGet ((k1, v1) :: rest) k1).getD [] ++ [r])
            = (k1, v1 ++ [r]) :: rest := by
          simp [mapSet, mapGet]
        rw [hm]
        simp only [List.map_cons, List.flatten_cons]
        rw [List.append_assoc, List.append_assoc]
        exact List.Perm.append_left v1 (List.perm_append_comm)
      · have hm : mapSet ((k1, v1) :: rest) k
              ((mapGet ((k1, v1) :: rest) k).getD [] ++ [r])
            = (k1, v1) :: mapSet rest k ((mapGet rest k).getD [] ++ [r]) := by
          simp [mapSet, mapGet, hk]
        rw [hm]
        simp only [List.map_cons, List.flatten_cons]
        rw [List.append_assoc]
        exact List.Perm.append_left v1 ih

theorem groupPairsAux_flat (pairs : List (String × String)) :
    ∀ prev : List (String × List String),
      List.Perm (((groupPairsAux prev pairs).map Prod.snd).flatten)
        ((prev.map Prod.snd).flatten ++ pairs.map Prod.snd) := by
  induction pairs with
  | nil => intro prev; simp [groupPairsAux]
  | cons cur rest ih =>
      intro prev
      have h1 := ih (mapSet prev cur.1 ((mapGet prev cur.1).getD [] ++ [cur.2]))
      have h2 := (flat_mapSet prev cur.1 cur.2).append_right (rest.map Prod.snd)
      show List.Perm (((groupPairsAux
          (mapSet prev cur.1 ((mapGet prev cur.1).getD [] ++ [cur.2]))
          rest).map Prod.snd).flatten) _
      refine (h1.trans h2).trans ?_
      rw [List.append_assoc]
      simp

theorem groupPairsAux_mem (pairs : List (String × String)) :
    ∀ (prev : List (String × List String)) (S : List (String × String)),
      (∀ g ∈ prev, ∀ r ∈ g.2, (g.1, r) ∈ S) →
      (∀ p ∈ pairs, p ∈ S) →
      ∀ g ∈ groupPairsAux prev pairs, ∀ r ∈ g.2, (g.1, r) ∈ S := by
  induction pairs with
  | nil =>
      intro prev S hprev _ g hg
      exact hprev g (by simpa [groupPairsAux] using hg)
  | cons cur rest ih =>
      intro prev S hprev hpairs
      have hset : ∀ g ∈ mapSet prev cur.1 ((mapGet prev cur.1).getD [] ++ [cur.2]),
          ∀ r ∈ g.2, (g.1, r) ∈ S := by
        intro g hg r hr
        rcases mem_mapSet hg with h1 | h1
        · exact hprev g h1 r hr
        · subst h1
          simp only at hr
          rcases List.mem_append.mp hr with h2 | h2
          · cases hget : mapGet prev cur.1 with
            | none => rw [hget] at h2; simp at h2
            | some v =>
                rw [hget] at h2
                simp only [Option.getD_some] at h2
                exact hprev (cur.1, v) (mapGet_mem hget) r h2
          · have h3 : r = cur.2 := by simpa using h2
            subst h3
            exact hpairs cur (List.mem_cons_self _ _)
      exact ih _ S hset (fun p hp => hpairs p (List.mem_cons_of_mem _ hp))

theorem join_map_sort_perm (le : String → String → Bool)
    (groups : List (String × List String)) :
    List.Perm
      (((groups.map (fun g => (g.1, stableSort le g.2))).map Prod.snd).flatten)
      ((groups.map Prod.snd).flatten) := by
  induction groups with
  | nil => exact List.Perm.refl _
  | cons g rest ih =>
      simp only [List.map_cons, List.flatten_cons]
      exact (stableSort_perm le g.2).append ih

/-- C7.  For a well-formed input mapping (distinct card references, as in a
JavaScript `Map`), every card reference in a group of `cardsByProfile` maps
in the input to a card whose derived profile reference is that group's key,
and the concatenation of all groups is a permutation of the input card
references, so the groups partition the input card set. -/
theorem cardsByProfile_partition (cards : List (String × IdCard))
    (hnd : (cards.map Prod.fst).Nodup) :
    (∀ g ∈ (aggregate cards).cardsByProfile, ∀ r ∈ g.2,
        ∃ c, mapGet cards r = some c ∧ profileRefOf c = g.1)
      ∧ List.Perm ((((aggregate cards).cardsByProfile).map Prod.snd).flatten)
          (cards.map Prod.fst) := by
  have hpairs : (discoverAux [] [] cards).2.2
      = cards.map (fun e => (profileRefOf e.2, e.1)) := discoverAux_pairs [] [] cards
  have hagg : (aggregate cards).cardsByProfile
      = (groupPairs (discoverAux [] [] cards).2.2).map
          (fun g => (g.1, stableSort
            (fun a b => decide (sortIdCardsNum cards a b ≤ 0)) g.2)) := rfl
  constructor
  · intro g hg r hr
    rw [hagg] at hg
    obtain ⟨g0, hg0, hgeq⟩ := List.mem_map.mp hg
    have hr0 : r ∈ g0.2 := by
      have : r ∈ stableSort (fun a b => decide (sortIdCardsNum cards a b ≤ 0)) g0.2 := by
        rw [← hgeq] at hr
        exact hr
      exact (stableSort_perm _ g0.2).mem_iff.mp this
    have hkey : (g0.1, r) ∈ (discoverAux [] [] cards).2.2 := by
      refine groupPairsAux_mem (discoverAux [] [] cards).2.2 [] _ ?_ ?_ g0 hg0 r hr0
      · intro g1 hg1
        simp at hg1
      · intro p hp
        exact hp
    rw [hpairs] at hkey
    obtain ⟨e, he, heq⟩ := List.mem_map.mp hkey
    rw [Prod.ext_iff] at heq
    obtain ⟨href, hrref⟩ := heq
    simp only at href hrref
    refine ⟨e.2, ?_, by rw [href, ← hgeq]⟩
    rw [← hrref]
    exact mapGet_of_mem_nodup hnd (by simpa using he)
  · rw [hagg]
    have h1 := join_map_sort_perm (fun a b => decide (sortIdCardsNum cards a b ≤ 0))
      (groupPairs (discoverAux [] [] cards).2.2)
    have h2 := groupPairsAux_flat (discoverAux [] [] cards).2.2 []
    have h3 : ((discoverAux [] [] cards).2.2).map Prod.snd = cards.map Prod.fst := by
      rw [hpairs, List.map_map]
      rfl
    refine (h1.trans ?_)
    simpa [h3] using h2

/-- Witness for C7 on a concrete three-card, two-profile mapping. -/
theorem cardsByProfile_partition_witness :
    ((exCards.map Prod.fst).Nodup)
      ∧ ((∀ g ∈ (aggregate exCards).cardsByProfile, ∀ r ∈ g.2,
            ∃ c, mapGet exCards r = some c ∧ profileRefOf c = g.1)
        ∧ List.Perm ((((aggregate exCards).cardsByProfile).map Prod.snd).flatten)
            (exCards.map Prod.fst)) :=
  ⟨by decide, cardsByProfile_partition exCards (by decide)⟩

/-! Facts about the computed profile order. -/

theorem computeProfileOrder_of_mem (names : List (String × String))
    (h : "web-$default" ∈ profileKeys names) :
    webProfile names = some "web-$default"
      ∧ List.Perm ("web-$default" :: splicedKeys names) (profileKeys names)
      ∧ List.Sublist (splicedKeys names) (profileKeys names) :=
  jsFound_spec h

theorem computeProfileOrder_of_not_mem (names : List (String × String))
    (h : "web-$default" ∉ profileKeys names) :
    webProfile names = none
      ∧ splicedKeys names = (profileKeys names).dropLast := by
  have hidx : webIndex names = -1 := jsIndexOf_of_not_mem h
  constructor
  · unfold webProfile
    rw [hidx]
    simp [jsAt]
  · unfold splicedKeys
    rw [hidx, jsSplice1_neg_one]

/-- C1, counterexample.  On a one-card input whose derived profile reference
is not the sentinel, the profile order is the single undefined entry while
the profile-name map has the one discovered key, so the order is not a
permutation of the keys: `splice(-1, 1)` removed the last discovered key and
`unshift` added the undefined lookup. -/
theorem profileOrder_not_perm_without_sentinel :
    (aggregate [("c1", exCardA1)]).profileOrder = [none]
      ∧ (aggregate [("c1", exCardA1)]).profileNames.map (fun e => some e.1)
          = [some "org-a-ref"]
      ∧ ¬ List.Perm ((aggregate [("c1", exCardA1)]).profileOrder)
          ((aggregate [("c1", exCardA1)]).profileNames.map (fun e => some e.1)) := by
  refine ⟨by decide, by decide, ?_⟩
  intro hperm
  have : (none : Option String) ∈ [some "org-a-ref"] := by
    have hmem : (none : Option String) ∈ (aggregate [("c1", exCardA1)]).profileOrder := by
      rw [show (aggregate [("c1", exCardA1)]).profileOrder = [none] from by decide]
      simp
    have := hperm.mem_iff.mp hmem
    rwa [show (aggregate [("c1", exCardA1)]).profileNames.map (fun e => some e.1)
        = [some "org-a-ref"] from by decide] at this
  simp at this

/-- C1, amended.  Whenever some input card's derived profile reference is
the sentinel `web-$default`, the computed profile order is a permutation of
the keys of the profile-name map and contains no duplicate entries. -/
theorem profileOrder_perm_profileNames (cards : List (String × IdCard))
    (h : "web-$default" ∈ cards.map (fun e => profileRefOf e.2)) :
    List.Perm ((aggregate cards).profileOrder)
        (((aggregate cards).profileNames).map (fun e => some e.1))
      ∧ ((aggregate cards).profileOrder).Nodup := by
  have hmem : "web-$default" ∈ profileKeys (discoverAux [] [] cards).1 :=
    (discoverAux_keys_mem [] [] cards _).mpr (Or.inr h)
  have hnd : (profileKeys (discoverAux [] [] cards).1).Nodup :=
    discoverAux_keys_nodup [] [] cards (by simp)
  obtain ⟨hat, hperm, hsub⟩ := computeProfileOrder_of_mem _ hmem
  have hsorted : List.Perm (sortedKeys (discoverAux [] [] cards).1)
      (splicedKeys (discoverAux [] [] cards).1) := stableSort_perm _ _
  have hord : (aggregate cards).profileOrder
      = some "web-$default" :: (sortedKeys (discoverAux [] [] cards).1).map some := by
    show computeProfileOrder (discoverAux [] [] cards).1 = _
    unfold computeProfileOrder
    rw [hat]
  have hbig : List.Perm
      (some "web-$default" :: (sortedKeys (discoverAux [] [] cards).1).map some)
      ((profileKeys (discoverAux [] [] cards).1).map some) := by
    have h1 := (hsorted.map some).cons (some "web-$default")
    have h2 := hperm.map some
    simp only [List.map_cons] at h2
    exact h1.trans h2
  constructor
  · rw [hord]
    have h3 : (profileKeys (discoverAux [] [] cards).1).map some
        = ((aggregate cards).profileNames).map (fun e => some e.1) := by
      show (((discoverAux [] [] cards).1).map Prod.fst).map some
          = ((discoverAux [] [] cards).1).map (fun e => some e.1)
      rw [List.map_map]
      rfl
    rw [← h3]
    exact hbig
  · rw [hord]
    exact hbig.nodup_iff.mpr (hnd.map (Option.some_injective _))

/-- Witness for the amended C1 on a concrete mapping containing the
sentinel profile. -/
theorem profileOrder_perm_profileNames_witness :
    ("web-$default" ∈ exCards.map (fun e => profileRefOf e.2))
      ∧ (List.Perm ((aggregate exCards).profileOrder)
            (((aggregate exCards).profileNames).map (fun e => some e.1))
        ∧ ((aggregate exCards).profileOrder).Nodup) :=
  ⟨by decide, profileOrder_perm_profileNames exCards (by decide)⟩

/-- C3.  Whenever some input card's derived profile reference is the
sentinel `web-$default`, the computed profile order has that sentinel
reference at index 0, whatever the display names are. -/
theorem profileOrder_head_sentinel (cards : List (String × IdCard))
    (h : "web-$default" ∈ cards.map (fun e => profileRefOf e.2)) :
    ((aggregate cards).profileOrder).head? = some (some "web-$default") := by
  have hmem : "web-$default" ∈ profileKeys (discoverAux [] [] cards).1 :=
    (discoverAux_keys_mem [] [] cards _).mpr (Or.inr h)
  obtain ⟨hat, -, -⟩ := computeProfileOrder_of_mem _ hmem
  show (computeProfileOrder (discoverAux [] [] cards).1).head? = _
  unfold computeProfileOrder
  rw [hat]
  rfl

/-- Witness for C3 on a concrete mapping whose sentinel profile has a
display name sorting after the other profiles' names. -/
theorem profileOrder_head_sentinel_witness :
    ("web-$default" ∈ exCards.map (fun e => profileRefOf e.2))
      ∧ ((aggregate exCards).profileOrder).head? = some (some "web-$default") :=
  ⟨by decide, profileOrder_head_sentinel exCards (by decide)⟩

/-- C9.  On a non-empty input mapping none of whose cards derives the
sentinel profile reference, the profile order starts with the undefined
entry produced by the `unsortedConnectionProfiles[-1]` lookup, and the rest
of the order is a permutation of all discovered profile references except
the last one in discovery order, which `splice(-1, 1)` removed. -/
theorem profileOrder_without_sentinel (cards : List (String × IdCard))
    (hne : cards ≠ [])
    (h : ∀ e ∈ cards, profileRefOf e.2 ≠ "web-$default") :
    ((aggregate cards).profileOrder).head? = some none
      ∧ List.Perm (((aggregate cards).profileOrder).tail)
          (((((aggregate cards).profileNames).map Prod.fst).dropLast).map some)
      ∧ (aggregate cards).profileNames ≠ [] := by
  have hnotmem : "web-$default" ∉ profileKeys (discoverAux [] [] cards).1 := by
    intro hmem
    rcases (discoverAux_keys_mem [] [] cards _).mp hmem with h1 | h1
    · simp at h1
    · obtain ⟨e, he, hre⟩ := List.mem_map.mp h1
      exact h e he hre
  obtain ⟨hat, hspl⟩ := computeProfileOrder_of_not_mem _ hnotmem
  refine ⟨?_, ?_, ?_⟩
  · show (computeProfileOrder (discoverAux [] [] cards).1).head? = some none
    unfold computeProfileOrder
    rw [hat]
    rfl
  · show List.Perm ((computeProfileOrder (discoverAux [] [] cards).1).tail)
        (((((discoverAux [] [] cards).1).map Prod.fst).dropLast).map some)
    have hsorted : List.Perm (sortedKeys (discoverAux [] [] cards).1)
        (splicedKeys (discoverAux [] [] cards).1) := stableSort_perm _ _
    rw [hspl] at hsorted
    unfold computeProfileOrder
    rw [List.tail_cons]
    exact hsorted.map some
  · obtain ⟨e0, he0⟩ := List.exists_mem_of_ne_nil cards hne
    have hk : profileRefOf e0.2 ∈ profileKeys (discoverAux [] [] cards).1 :=
      (discoverAux_keys_mem [] [] cards _).mpr
        (Or.inr (List.mem_map.mpr ⟨e0, he0, rfl⟩))
    intro hnil
    have : profileKeys (discoverAux [] [] cards).1 = [] := by
      show ((discoverAux [] [] cards).1).map Prod.fst = []
      have haggr : (discoverAux [] [] cards).1 = (aggregate cards).profileNames := rfl
      rw [haggr, hnil]
      rfl
    rw [this] at hk
    simp at hk

/-- Witness for C9 on a concrete two-profile mapping without the
sentinel. -/
theorem profileOrder_without_sentinel_witness :
    (exCardsNoWeb ≠ []
        ∧ ∀ e ∈ exCardsNoWeb, profileRefOf e.2 ≠ "web-$default")
      ∧ (((aggregate exCardsNoWeb).profileOrder).head? = some none
        ∧ List.Perm (((aggregate exCardsNoWeb).profileOrder).tail)
            (((((aggregate exCardsNoWeb).profileNames).map Prod.fst).dropLast).map some)
        ∧ (aggregate exCardsNoWeb).profileNames ≠ []) :=
  ⟨⟨by decide, by decide⟩,
    profileOrder_without_sentinel exCardsNoWeb (by decide) (by decide)⟩

/-- C6.  The non-sentinel profile references of the computed order (its
entries that are present and differ from `web-$default`) are non-decreasing
by display name under the case-sensitive lexicographic comparison: every
such reference has a recorded display name, adjacent ones are ordered, and
for each display name the references carrying it appear as a subsequence of
the discovery-order key list, so exact ties keep their first-encounter
order. -/
theorem profileOrder_sorted_stable (cards : List (String × IdCard)) :
    List.Chain'
        (fun a b => ∃ na nb,
          mapGet (aggregate cards).profileNames a = some na
            ∧ mapGet (aggregate cards).profileNames b = some nb
            ∧ (charListLt na.data nb.data = true ∨ na = nb))
        ((((aggregate cards).profileOrder).filterMap id).filter
          (fun r => decide (r ≠ "web-$default")))
      ∧ ∀ n : String,
          List.Sublist
            (((((aggregate cards).profileOrder).filterMap id).filter
                (fun r => decide (r ≠ "web-$default"))).filter
              (fun r => decide (mapGet (aggregate cards).profileNames r = some n)))
            ((((aggregate cards).profileNames).map Prod.fst).filter
              (fun r => decide (mapGet (aggregate cards).profileNames r = some n))) := by
  have hnames : (aggregate cards).profileNames = (discoverAux [] [] cards).1 := rfl
  have hord : (aggregate cards).profileOrder
      = computeProfileOrder (discoverAux [] [] cards).1 := rfl
  rw [hnames, hord]
  set N := (discoverAux [] [] cards).1 with hN
  have hnd : (profileKeys N).Nodup := discoverAux_keys_nodup [] [] cards (by simp)
  have hsub2 : List.Sublist (splicedKeys N) (profileKeys N) := by
    by_cases hmem : "web-$default" ∈ profileKeys N
    · exact (computeProfileOrder_of_mem N hmem).2.2
    · rw [(computeProfileOrder_of_not_mem N hmem).2]
      exact List.dropLast_sublist _
  have hsortmem : ∀ r ∈ sortedKeys N, r ∈ profileKeys N := by
    intro r hr
    exact hsub2.subset ((stableSort_perm _ _).mem_iff.mp hr)
  have hrefs : ((computeProfileOrder N).filterMap id).filter
      (fun r => decide (r ≠ "web-$default")) = sortedKeys N := by
    by_cases hmem : "web-$default" ∈ profileKeys N
    · obtain ⟨hat, hperm, hsub⟩ := computeProfileOrder_of_mem N hmem
      unfold computeProfileOrder
      rw [hat]
      rw [show (some "web-$default" :: (sortedKeys N).map some).filterMap id
          = "web-$default" :: ((sortedKeys N).map some).filterMap id from by simp]
      rw [filterMap_id_map_some]
      rw [List.filter_cons]
      rw [if_neg (by decide)]
      rw [List.filter_eq_self.mpr]
      intro r hr
      have hnodup2 : ("web-$default" :: splicedKeys N).Nodup :=
        hperm.nodup_iff.mpr hnd
      have hw2 : "web-$default" ∉ splicedKeys N := (List.nodup_cons.mp hnodup2).1
      have hrs : r ∈ splicedKeys N := (stableSort_perm _ _).mem_iff.mp hr
      simp only [decide_eq_true_eq]
      exact fun heq => hw2 (heq ▸ hrs)
    · obtain ⟨hat, hspl⟩ := computeProfileOrder_of_not_mem N hmem
      unfold computeProfileOrder
      rw [hat]
      rw [show ((none : Option String) :: (sortedKeys N).map some).filterMap id
          = ((sortedKeys N).map some).filterMap id from by simp]
      rw [filterMap_id_map_some]
      rw [List.filter_eq_self.mpr]
      intro r hr
      have hrk : r ∈ profileKeys N := hsortmem r hr
      simp only [decide_eq_true_eq]
      exact fun heq => hmem (heq ▸ hrk)
  constructor
  · rw [hrefs]
    have hch := chain'_stableSort (fun a b => decide (profileCmp N a b ≤ 0))
      (fun a b => profileCmp_le_total N a b) (splicedKeys N)
    refine chain'_transfer (Q := fun x => ∃ nx, mapGet N x = some nx) hch ?_ ?_
    · intro x hx
      have hxk : x ∈ profileKeys N := hsortmem x hx
      have hxk2 : (mapGet N x).isSome = true := by
        rw [mapGet_isSome_iff_mem]
        exact hxk
      exact Option.isSome_iff_exists.mp hxk2
    · intro a b hR hQa hQb
      obtain ⟨na, hna⟩ := hQa
      obtain ⟨nb, hnb⟩ := hQb
      refine ⟨na, nb, hna, hnb, ?_⟩
      have hle : profileCmp N a b ≤ 0 := of_decide_eq_true hR
      rw [profileCmp_eq, hna, hnb] at hle
      have hjs1 : jsLt (optStrVal (some na)) (optStrVal (some nb))
          = charListLt na.data nb.data := rfl
      have hjs2 : jsLt (optStrVal (some nb)) (optStrVal (some na))
          = charListLt nb.data na.data := rfl
      rw [hjs1, hjs2] at hle
      by_cases h1 : charListLt na.data nb.data = true
      · exact Or.inl h1
      · right
        by_cases h2 : charListLt nb.data na.data = true
        · rw [if_neg h1, if_pos h2] at hle
          omega
        · have h1f : charListLt na.data nb.data = false := by simpa using h1
          have h2f : charListLt nb.data na.data = false := by simpa using h2
          have hdata : na.data = nb.data := charListLt_antisymm h1f h2f
          cases na
          cases nb
          simp_all
  · intro n
    rw [hrefs]
    have hcomp : ∀ a b, (decide (mapGet N a = some n)) = true →
        (decide (mapGet N b = some n)) = true →
        (decide (profileCmp N a b ≤ 0)) = true := by
      intro a b ha hb
      have ha' : mapGet N a = some n := of_decide_eq_true ha
      have hb' : mapGet N b = some n := of_decide_eq_true hb
      apply decide_eq_true
      rw [profileCmp_eq, ha', hb']
      have hjs : jsLt (optStrVal (some n)) (optStrVal (some n))
          = charListLt n.data n.data := rfl
      rw [hjs, charListLt_irrefl]
      simp
    have hfs := filter_stableSort (fun a b => decide (profileCmp N a b ≤ 0))
      (fun r => decide (mapGet N r = some n)) hcomp (splicedKeys N)
    unfold sortedKeys
    rw [hfs]
    exact hsub2.filter _

/-! Basic facts about the comparator `sortBy`. -/

theorem jsTruthy_str_of_ne {s : String} (hs : s ≠ "") :
    jsTruthy (JsVal.str s) = true := by
  simp [jsTruthy, hs]

theorem sortBy_of_falsy_left {a : JsVal} (ha : jsTruthy a = false) (b : JsVal) :
    sortBy a b = if jsTruthy b then -1 else 0 := by
  cases hb : jsTruthy b <;> simp [sortBy, ha, hb]

theorem sortBy_of_falsy_right {b : JsVal} (hb : jsTruthy b = false) (a : JsVal) :
    sortBy a b = if jsTruthy a then 1 else 0 := by
  cases ha : jsTruthy a <;> simp [sortBy, ha, hb]

/-- C2, counterexample.  On the empty input mapping the computed profile
order is not the empty sequence, refuting the claim that the whole result is
empty: `indexOf` returns -1, the clamped `splice(-1, 1)` removes nothing,
and `unshift` pushes the undefined array lookup, leaving a one-element
order. -/
theorem aggregate_empty_not_all_empty :
    ¬ ((aggregate ([] : List (String × IdCard))).profileNames = []
      ∧ (aggregate ([] : List (String × IdCard))).profileOrder = []
      ∧ (aggregate ([] : List (String × IdCard))).cardsByProfile = []) := by
  decide

/-- C2, amended.  On the empty input mapping the profile-name map and the
cards-by-profile map are empty, but the profile order is the one-element
sequence holding the absent (undefined) sentinel lookup. -/
theorem aggregate_empty_characterization :
    (aggregate ([] : List (String × IdCard))).profileNames = []
      ∧ (aggregate ([] : List (String × IdCard))).profileOrder = [none]
      ∧ (aggregate ([] : List (String × IdCard))).cardsByProfile = [] := by
  decide

/-- C4.  The card comparator never performs the documented third tie-break:
on two cards with equal business-network comparison and equal roles
comparison but distinct display names, `sortIdCards` computes the name
comparison (here -1) and then falls off the end of the function, returning
`undefined` (`none`) instead, so the sort leaves such cards unordered by
name. -/
theorem sortIdCards_missing_final_return :
    sortIdCards
        ⟨some "a", some "net-a", some ["PeerAdmin"], ⟨"Prof A", "prof-a"⟩⟩
        ⟨some "b", some "net-a", some ["PeerAdmin"], ⟨"Prof A", "prof-a"⟩⟩ = none
      ∧ sortBy (optStrVal (some "a")) (optStrVal (some "b")) = -1 := by
  decide

/-- C5, counterexample.  For two cards with equal business-network names
where the first has an empty roles array and the second has absent roles,
the roles comparison yields 1, not 0: an empty array is truthy in
JavaScript, so it counts as present while `undefined` counts as absent. -/
theorem sortBy_empty_vs_absent_roles_ne_zero :
    sortBy (rolesVal (some [])) (rolesVal none) = 1
      ∧ ¬ (sortBy (rolesVal (some [])) (rolesVal none) = 0)
      ∧ sortIdCards
          ⟨some "u", some "net-a", some [], ⟨"Prof A", "prof-a"⟩⟩
          ⟨some "v", some "net-a", none, ⟨"Prof A", "prof-a"⟩⟩ = some 1 := by
  decide

/-- C5, amended.  The comparator treats an empty roles array as present and
absent roles as absent: whenever one card has an empty roles array and the
other has absent roles, the roles comparison yields 1 with the empty array
on the left and -1 with the empty array on the right, never 0. -/
theorem sortBy_empty_vs_absent_roles (cardA cardB : IdCard)
    (ha : cardA.roles = some []) (hb : cardB.roles = none) :
    sortBy (rolesVal cardA.roles) (rolesVal cardB.roles) = 1
      ∧ sortBy (rolesVal cardB.roles) (rolesVal cardA.roles) = -1 := by
  rw [ha, hb]
  decide

/-- Witness for the amended C5 at a concrete pair of cards. -/
theorem sortBy_empty_vs_absent_roles_witness :
    (IdCard.roles ⟨some "u", some "net-a", some [], ⟨"Prof A", "prof-a"⟩⟩ = some []
        ∧ IdCard.roles ⟨some "v", some "net-a", none, ⟨"Prof A", "prof-a"⟩⟩ = none)
      ∧ (sortBy (rolesVal (IdCard.roles ⟨some "u", some "net-a", some [], ⟨"Prof A", "prof-a"⟩⟩))
            (rolesVal (IdCard.roles ⟨some "v", some "net-a", none, ⟨"Prof A", "prof-a"⟩⟩)) = 1
        ∧ sortBy (rolesVal (IdCard.roles ⟨some "v", some "net-a", none, ⟨"Prof A", "prof-a"⟩⟩))
            (rolesVal (IdCard.roles ⟨some "u", some "net-a", some [], ⟨"Prof A", "prof-a"⟩⟩)) = -1) :=
  ⟨⟨rfl, rfl⟩,
    sortBy_empty_vs_absent_roles
      ⟨some "u", some "net-a", some [], ⟨"Prof A", "prof-a"⟩⟩
      ⟨some "v", some "net-a", none, ⟨"Prof A", "prof-a"⟩⟩ rfl rfl⟩

/-- C10.  The comparator `sortBy` treats every falsy key as absent: an
empty-string key behaves exactly like an absent key against any opponent
value, both compare equal to each other, and both compare before (-1) any
non-empty string key. -/
theorem sortBy_falsy_keys (v : Option String) (s : String) (hs : s ≠ "") :
    (sortBy (optStrVal (some "")) (optStrVal v) = sortBy (optStrVal none) (optStrVal v)
        ∧ sortBy (optStrVal v) (optStrVal (some "")) = sortBy (optStrVal v) (optStrVal none))
      ∧ sortBy (optStrVal (some "")) (optStrVal none) = 0
      ∧ sortBy (optStrVal none) (optStrVal (some "")) = 0
      ∧ sortBy (optStrVal (some "")) (optStrVal (some s)) = -1
      ∧ sortBy (optStrVal none) (optStrVal (some s)) = -1 := by
  have hempty : jsTruthy (optStrVal (some "")) = false := by decide
  have hundef : jsTruthy (optStrVal none) = false := by decide
  have hstr : jsTruthy (optStrVal (some s)) = true := jsTruthy_str_of_ne hs
  refine ⟨⟨?_, ?_⟩, ?_, ?_, ?_, ?_⟩
  · rw [sortBy_of_falsy_left hempty, sortBy_of_falsy_left hundef]
  · rw [sortBy_of_falsy_right hempty, sortBy_of_falsy_right hundef]
  · rw [sortBy_of_falsy_left hempty]
    simp [hundef]
  · rw [sortBy_of_falsy_left hundef]
    simp [hempty]
  · rw [sortBy_of_falsy_left hempty]
    simp [hstr]
  · rw [sortBy_of_falsy_left hundef]
    simp [hstr]

/-- Witness for C10 at a concrete opponent value and non-empty string. -/
theorem sortBy_falsy_keys_witness :
    ("x" ≠ ""
      ∧ ((sortBy (optStrVal (some "")) (optStrVal (some "net-a"))
              = sortBy (optStrVal none) (optStrVal (some "net-a"))
          ∧ sortBy (optStrVal (some "net-a")) (optStrVal (some ""))
              = sortBy (optStrVal (some "net-a")) (optStrVal none))
        ∧ sortBy (optStrVal (some "")) (optStrVal none) = 0
        ∧ sortBy (optStrVal none) (optStrVal (some "")) = 0
        ∧ sortBy (optStrVal (some "")) (optStrVal (some "x")) = -1
        ∧ sortBy (optStrVal none) (optStrVal (some "x")) = -1)) :=
  ⟨by decide, sortBy_falsy_keys (some "net-a") "x" (by decide)⟩

/-- C8.  One `loadIdentityCards` run is a pure function of the card mapping:
running it a second time on its own output changes nothing, and every field
it assigns is independent of the prior component state. -/
theorem loadIdentityCards_idempotent (cards : List (String × IdCard))
    (s t : LoginState) :
    loadIdentityCards cards (loadIdentityCards cards s) = loadIdentityCards cards s
      ∧ (loadIdentityCards cards s).idCards = (loadIdentityCards cards t).idCards
      ∧ (loadIdentityCards cards s).connectionProfileNames
          = (loadIdentityCards cards t).connectionProfileNames
      ∧ (loadIdentityCards cards s).connectionProfiles
          = (loadIdentityCards cards t).connectionProfiles
      ∧ (loadIdentityCards cards s).idCardRefs
          = (loadIdentityCards cards t).idCardRefs
      ∧ (loadIdentityCards cards s).connectionProfileRefs
          = (loadIdentityCards cards t).connectionProfileRefs :=
  ⟨rfl, rfl, rfl, rfl, rfl, rfl⟩

end FabricComposer
